import Mathlib

/-!
Verification of the live process-view engine of a terminal process dashboard
(a single-file Rust program).  The definitions below are a shallow embedding
of the program's data model and operations:

* `ProcessInfo` / `App`           — the structs of the source.
* `App.update_data`               — sorting of a freshly sampled snapshot
                                    (the acquisition of raw OS metrics is an
                                    external collaborator; only the sorting
                                    of the already-resolved records is code
                                    of this program).
* `App.filtered_processes`        — substring filter over the command line.
* `tree_ordered_processes`        — the parent/child tree flattening.
* cursor operations `App.next`, `App.previous`, `App.page_down`,
  `App.page_up`, `App.home`, `App.end_`, `App.set_sort_by`, and the kill-menu
  cursor operations.
* `handleKey`                     — the modal key dispatch of the main loop.

Machine integers (u32/u64/usize) are modelled as `Nat`; the float fields
(cpu, mem) are modelled as `Rat`, which has the same total order the source
relies on through `partial_cmp(..).unwrap()` for the finite, non-NaN values
the metrics provider produces.  The recursive tree walk
`add_tree_children` is embedded with an explicit fuel argument (the number
of processes); the Rust recursion only ever descends along parent→child
edges starting from a root, so a chain of calls visits pairwise distinct
records and `procs.length` levels of fuel are never exhausted.
-/

/-- Mirrors the Rust enum `SortOrder`. -/
inductive SortOrder where
  | Asc
  | Desc
deriving DecidableEq, Repr

/-- Mirrors the Rust enum `SortBy`. -/
inductive SortBy where
  | PID
  | User
  | CPU
  | MEM
  | Time
  | Command
deriving DecidableEq, Repr

/-- Mirrors the Rust enum `InputMode`. -/
inductive InputMode where
  | Normal
  | Search
  | KillMenu
deriving DecidableEq, Repr

/-- Mirrors the Rust struct `ProcessInfo`.  `pid`/`ppid` are u32, the float
usage fields are modelled as rationals, `virtual_mem`/`cpu_time` are u64. -/
structure ProcessInfo where
  pid : Nat
  ppid : Nat
  user : String
  status : String
  cpu : Rat
  mem : Rat
  virtual_mem : Nat
  cpu_time : Nat
  command : String
deriving DecidableEq, Repr

/-- Mirrors the Rust struct `App`.  `state` is the `selected()` content of the
`TableState` (the single cursor); `kill_menu_state` likewise holds the
selected index of the kill-menu `ListState`.  System-wide metric fields
(cpu gauges, memory, uptime, load average) play no role in any claim and
are omitted. -/
structure App where
  processes : List ProcessInfo
  state : Option Nat
  sort_by : SortBy
  sort_order : SortOrder
  message : Option String
  input_mode : InputMode
  search_query : String
  active_filter : Option String
  tree_view : Bool
  kill_menu_state : Option Nat
  kill_signals : List (String × Int)
deriving DecidableEq, Repr

/-- Mirrors `App::new`: default sort CPU/descending, kill menu cursor on the
first catalog entry, everything else empty. -/
def App.new : App :=
  { processes := []
    state := none
    sort_by := .CPU
    sort_order := .Desc
    message := none
    input_mode := .Normal
    search_query := ""
    active_filter := none
    tree_view := false
    kill_menu_state := some 0
    kill_signals := [(" 1 SIGHUP", 1), (" 2 SIGINT", 2), (" 9 SIGKILL", 9),
                     ("15 SIGTERM", 15), ("20 SIGTSTP", 20), ("24 SIGXCPU", 24)] }

/-- Three-way comparison by `<` / `=`, the comparison `Ord::cmp` (and, for the
finite float fields, `partial_cmp(..).unwrap()`) performs on a totally
ordered type. -/
def cmpOf {α : Type} [LinearOrder α] (a b : α) : Ordering :=
  if a < b then .lt else if a = b then .eq else .gt

/-- The per-key comparator of `App::update_data` (the `match self.sort_by`). -/
def proc_cmp (k : SortBy) (a b : ProcessInfo) : Ordering :=
  match k with
  | .PID => cmpOf a.pid b.pid
  | .User => cmpOf a.user b.user
  | .CPU => cmpOf a.cpu b.cpu
  | .MEM => cmpOf a.mem b.mem
  | .Time => cmpOf a.cpu_time b.cpu_time
  | .Command => cmpOf a.command b.command

/-- Applying the sort direction: `SortOrder::Desc` reverses the ordering,
as `ordering.reverse()` does in the source. -/
def ord_apply (o : SortOrder) (ord : Ordering) : Ordering :=
  match o with
  | .Asc => ord
  | .Desc => ord.swap

/-- The boolean "less or equal" induced by the source comparator: element `a`
may stay before `b` exactly when the comparator does not say `Greater`. -/
def proc_le (k : SortBy) (o : SortOrder) (a b : ProcessInfo) : Bool :=
  ord_apply o (proc_cmp k a b) != Ordering.gt

/-- Mirrors the process-list part of `App::update_data`: the freshly sampled
snapshot replaces `self.processes`, stably sorted by the active
`(sort_by, sort_order)` comparator (`Vec::sort_by` is a stable sort, as is
`List.mergeSort`).  Raw metric acquisition is external and not modelled. -/
def App.update_data (app : App) (snapshot : List ProcessInfo) : App :=
  { app with processes := snapshot.mergeSort (proc_le app.sort_by app.sort_order) }

/-- Byte-wise prefix test on character lists (`str::starts_with` semantics). -/
def isPrefixOfCL : List Char → List Char → Bool
  | [], _ => true
  | _ :: _, [] => false
  | a :: as, b :: bs => a == b && isPrefixOfCL as bs

/-- Substring containment on character lists, the semantics of Rust's
`str::contains` with a string pattern: some suffix of the haystack starts
with the needle (an empty needle is always contained). -/
def containsCL : List Char → List Char → Bool
  | [], needle => needle.isEmpty
  | h :: t, needle => isPrefixOfCL needle (h :: t) || containsCL t needle

/-- `haystack.contains(needle)` on strings. -/
def str_contains (haystack needle : String) : Bool :=
  containsCL haystack.toList needle.toList

/-- The filter predicate of `App::filtered_processes`: with no active filter
every record passes, otherwise the lower-cased command line must contain the
lower-cased pattern. -/
def matches_filter (f : Option String) (p : ProcessInfo) : Bool :=
  match f with
  | none => true
  | some s => str_contains p.command.toLower s.toLower

/-- Mirrors `App::filtered_processes`. -/
def App.filtered_processes (app : App) : List ProcessInfo :=
  match app.active_filter with
  | some s => app.processes.filter (fun p => str_contains p.command.toLower s.toLower)
  | none => app.processes

/-- Root test of `App::tree_ordered_processes`: a record is a root iff its
`ppid` is 0 or no record of the snapshot has that pid. -/
def isRoot (procs : List ProcessInfo) (p : ProcessInfo) : Bool :=
  p.ppid == 0 || procs.all (fun q => q.pid != p.ppid)

/-- Boolean pid comparison used when sorting roots and children
(`sort_by_key(|p| p.pid)`). -/
def pid_le (a b : ProcessInfo) : Bool := decide (a.pid ≤ b.pid)

/-- The children `pid_map` entry for a given pid: the non-root records whose
`ppid` equals it, in snapshot order (as the map is filled by one pass over
`self.processes`). -/
def childrenList (procs : List ProcessInfo) (pidKey : Nat) : List ProcessInfo :=
  procs.filter (fun q => !isRoot procs q && q.ppid == pidKey)

/-- The children of a node as `add_tree_children` visits them: the map entry
stably sorted ascending by pid. -/
def childrenSorted (procs : List ProcessInfo) (pidKey : Nat) : List ProcessInfo :=
  (childrenList procs pidKey).mergeSort pid_le

/-- Mirrors `App::add_tree_children`: push the node with its depth, then
recurse into its children sorted by pid.  The extra `fuel` argument makes the
recursion structural; the Rust recursion starting from a root only descends
chains of pairwise distinct records, so `procs.length` fuel is never
exhausted (proved below for snapshots with unique pids). -/
def add_tree_children (procs : List ProcessInfo) :
    Nat → Nat → ProcessInfo → List (Nat × ProcessInfo)
  | 0, _, _ => []
  | fuel + 1, depth, p =>
    (depth, p) :: (childrenSorted procs p.pid).flatMap (add_tree_children procs fuel (depth + 1))

/-- The roots in visit order: the records that satisfy `isRoot`, in snapshot
order, then stably sorted ascending by pid. -/
def rootsSorted (procs : List ProcessInfo) : List ProcessInfo :=
  (procs.filter (fun p => isRoot procs p)).mergeSort pid_le

/-- Mirrors `App::tree_ordered_processes`: pre-order depth-first traversal
from the pid-sorted roots. -/
def tree_ordered_processes (procs : List ProcessInfo) : List (Nat × ProcessInfo) :=
  (rootsSorted procs).flatMap (add_tree_children procs procs.length 0)

/-- Mirrors `App::selected_pid`. -/
def App.selected_pid (app : App) : Option Nat :=
  match app.state with
  | none => none
  | some idx =>
    if app.tree_view then
      ((tree_ordered_processes app.processes).get? idx).map (fun dp => dp.2.pid)
    else
      ((App.filtered_processes app).get? idx).map (fun p => p.pid)

/-- Mirrors `App::get_list_length`: tree view shows all processes, flat view
the filtered ones. -/
def App.get_list_length (app : App) : Nat :=
  if app.tree_view then app.processes.length else (App.filtered_processes app).length

/-- Mirrors `App::next`. -/
def App.next (app : App) : App :=
  let len := app.get_list_length
  if len = 0 then app
  else
    let i := match app.state with
      | some i => if i ≥ len - 1 then 0 else i + 1
      | none => 0
    { app with state := some i }

/-- Mirrors `App::previous`. -/
def App.previous (app : App) : App :=
  let len := app.get_list_length
  if len = 0 then app
  else
    let i := match app.state with
      | some i => if i = 0 then len - 1 else i - 1
      | none => len - 1
    { app with state := some i }

/-- Mirrors `App::page_down`. -/
def App.page_down (app : App) (page_size : Nat) : App :=
  let len := app.get_list_length
  if len = 0 then app
  else
    let i := (app.state).getD 0
    { app with state := some (min (i + page_size) (len - 1)) }

/-- Mirrors `App::page_up`. -/
def App.page_up (app : App) (page_size : Nat) : App :=
  let len := app.get_list_length
  if len = 0 then app
  else
    let i := (app.state).getD 0
    { app with state := some (i - page_size) }

/-- Mirrors `App::home`. -/
def App.home (app : App) : App :=
  if app.get_list_length > 0 then { app with state := some 0 } else app

/-- Mirrors `App::end` (`end` is a Lean keyword, hence the underscore). -/
def App.end_ (app : App) : App :=
  let len := app.get_list_length
  if len > 0 then { app with state := some (len - 1) } else app

/-- Mirrors `App::set_sort_by`. -/
def App.set_sort_by (app : App) (sort_by : SortBy) : App :=
  if app.sort_by = sort_by then
    { app with
      sort_order := match app.sort_order with | .Asc => .Desc | .Desc => .Asc
      state := some 0 }
  else
    { app with sort_by := sort_by, sort_order := .Desc, state := some 0 }

/-- Mirrors `App::next_kill_signal`. -/
def App.next_kill_signal (app : App) : App :=
  let i := match app.kill_menu_state with
    | some i => if i ≥ app.kill_signals.length - 1 then 0 else i + 1
    | none => 0
  { app with kill_menu_state := some i }

/-- Mirrors `App::previous_kill_signal`. -/
def App.previous_kill_signal (app : App) : App :=
  let i := match app.kill_menu_state with
    | some i => if i = 0 then app.kill_signals.length - 1 else i - 1
    | none => 0
  { app with kill_menu_state := some i }

/-- The key events the main loop consumes (the crossterm `KeyCode` subset the
source matches on). -/
inductive KeyCode where
  | Char (c : Char)
  | F (n : Nat)
  | Down
  | Up
  | PageDown
  | PageUp
  | Home
  | End
  | Esc
  | Enter
  | Backspace
deriving DecidableEq, Repr

/-- Outcome of the external signal-delivery collaborator (`kill_process`):
success, or a textual failure reason.  The core never inspects more. -/
def KillResult := Nat → Int → Except String Unit

/-- The `InputMode::Normal` arm of `main`'s key match.  The quit key only
breaks the loop and leaves the state untouched.  The character and
function-key literal patterns of the Rust match are translated into equality
tests, arm for arm, in source order. -/
def handleNormalKey (page_size : Nat) (key : KeyCode) (app : App) : App :=
  match key with
  | .Char c =>
    if c = 'q' then app
    else if c = '/' then { app with input_mode := .Search, message := none }
    else if c = 'I' ∨ c = 'i' then app.set_sort_by app.sort_by
    else if c = 'P' ∨ c = 'p' then app.set_sort_by .PID
    else if c = 'U' ∨ c = 'u' then app.set_sort_by .User
    else if c = 'M' ∨ c = 'm' then app.set_sort_by .MEM
    else if c = 'T' ∨ c = 't' then app.set_sort_by .Time
    else if c = 'C' ∨ c = 'c' then app.set_sort_by .Command
    else app
  | .F n =>
    if n = 10 then app
    else if n = 5 then { app with tree_view := !app.tree_view }
    else if n = 9 then
      (if app.selected_pid.isSome then { app with input_mode := .KillMenu } else app)
    else app
  | .Down => app.next
  | .Up => app.previous
  | .PageDown => app.page_down page_size
  | .PageUp => app.page_up page_size
  | .Home => app.home
  | .End => app.end_
  | .Esc =>
    let app := if app.active_filter.isSome then
        { app with active_filter := none, search_query := "", state := some 0 }
      else app
    { app with message := none }
  | _ => app

/-- The `InputMode::Search` arm of `main`'s key match. -/
def handleSearchKey (key : KeyCode) (app : App) : App :=
  match key with
  | .Enter =>
    { app with
      input_mode := .Normal
      active_filter := if app.search_query.isEmpty then none else some app.search_query
      state := some 0 }
  | .Char c => { app with search_query := app.search_query.push c }
  | .Backspace => { app with search_query := app.search_query.dropRight 1 }
  | .Esc => { app with input_mode := .Normal, search_query := "" }
  | _ => app

/-- The `InputMode::KillMenu` arm of `main`'s key match.  `res` is the
external signal-delivery collaborator consulted on confirm. -/
def handleKillMenuKey (res : KillResult) (key : KeyCode) (app : App) : App :=
  match key with
  | .Esc | .Char 'q' => { app with input_mode := .Normal }
  | .Down => app.next_kill_signal
  | .Up => app.previous_kill_signal
  | .Enter =>
    let app' :=
      match app.selected_pid, app.kill_menu_state with
      | some pid, some idx =>
        let signal := (((app.kill_signals).get? idx).map Prod.snd).getD 0
        match res pid signal with
        | .ok _ =>
          { app with message := some ("Sent signal " ++ toString signal ++ " to PID " ++ toString pid) }
        | .error e =>
          { app with message := some ("Error killing " ++ toString pid ++ ": " ++ e) }
      | _, _ => app
    { app' with input_mode := .Normal }
  | _ => app

/-- The key dispatch of `main`'s event loop, one mode-and-key step.  `res`
is the external signal-delivery collaborator; `page_size` is the visible
table height computed by the render layer. -/
def handleKey (res : KillResult) (page_size : Nat) (key : KeyCode) (app : App) : App :=
  match app.input_mode with
  | .Normal => handleNormalKey page_size key app
  | .Search => handleSearchKey key app
  | .KillMenu => handleKillMenuKey res key app

/-- The flat-mode view: what `main` renders when `tree_view` is off — the
snapshot sorted by the active key and direction (`update_data`) and then
filtered (`filtered_processes`). -/
def render_flat (snap : List ProcessInfo) (k : SortBy) (o : SortOrder)
    (f : Option String) : List ProcessInfo :=
  (App.update_data { App.new with sort_by := k, sort_order := o, active_filter := f } snap).filtered_processes

/-- Depth of a record in the process forest, following `ppid` links up to a
root; `none` when the parent chain does not reach a root (a parent cycle).
The fuel mirrors the longest possible chain of distinct records. -/
def depthOfAux (procs : List ProcessInfo) : Nat → ProcessInfo → Option Nat
  | 0, _ => none
  | k + 1, p =>
    if isRoot procs p then some 0
    else
      match procs.find? (fun q => q.pid == p.ppid) with
      | some q => (depthOfAux procs k q).map (· + 1)
      | none => none

/-- Canonical depth: `depthOfAux` with ample fuel. -/
def depthOf (procs : List ProcessInfo) (p : ProcessInfo) : Option Nat :=
  depthOfAux procs (procs.length + 1) p

/-- Every record's parent chain reaches a root: no record is caught in a
parent cycle. -/
def allRooted (procs : List ProcessInfo) : Bool :=
  procs.all (fun p => (depthOf procs p).isSome)

/-- `k`-fold parent step: the `k`-th ancestor of a record (stopping at roots). -/
def ancIter (procs : List ProcessInfo) : Nat → ProcessInfo → Option ProcessInfo
  | 0, p => some p
  | k + 1, p =>
    (ancIter procs k p).bind fun g =>
      if isRoot procs g then none else procs.find? (fun r => r.pid == g.ppid)

/-! ## Basic preservation lemmas for the cursor operations -/

/-- A dummy successful signal-delivery collaborator, used for concrete runs. -/
abbrev okKill : KillResult := fun _ _ => Except.ok ()

theorem get_list_length_state (app : App) (s : Option Nat) :
    App.get_list_length { app with state := s } = app.get_list_length := rfl

@[simp] theorem next_get_list_length (app : App) :
    (App.next app).get_list_length = app.get_list_length := by
  unfold App.next; dsimp only; split <;> rfl

@[simp] theorem previous_get_list_length (app : App) :
    (App.previous app).get_list_length = app.get_list_length := by
  unfold App.previous; dsimp only; split <;> rfl

@[simp] theorem page_down_get_list_length (app : App) (ps : Nat) :
    (app.page_down ps).get_list_length = app.get_list_length := by
  unfold App.page_down; dsimp only; split <;> rfl

@[simp] theorem page_up_get_list_length (app : App) (ps : Nat) :
    (app.page_up ps).get_list_length = app.get_list_length := by
  unfold App.page_up; dsimp only; split <;> rfl

@[simp] theorem home_get_list_length (app : App) :
    (app.home).get_list_length = app.get_list_length := by
  unfold App.home; split <;> rfl

@[simp] theorem end_get_list_length (app : App) :
    (app.end_).get_list_length = app.get_list_length := by
  unfold App.end_; dsimp only; split <;> rfl

@[simp] theorem set_sort_by_input_mode (app : App) (k : SortBy) :
    (app.set_sort_by k).input_mode = app.input_mode := by
  unfold App.set_sort_by; split <;> rfl

@[simp] theorem set_sort_by_kill_menu_state (app : App) (k : SortBy) :
    (app.set_sort_by k).kill_menu_state = app.kill_menu_state := by
  unfold App.set_sort_by; split <;> rfl

@[simp] theorem next_input_mode (app : App) :
    (App.next app).input_mode = app.input_mode := by
  unfold App.next; dsimp only; split <;> rfl

@[simp] theorem previous_input_mode (app : App) :
    (App.previous app).input_mode = app.input_mode := by
  unfold App.previous; dsimp only; split <;> rfl

@[simp] theorem page_down_input_mode (app : App) (ps : Nat) :
    (app.page_down ps).input_mode = app.input_mode := by
  unfold App.page_down; dsimp only; split <;> rfl

@[simp] theorem page_up_input_mode (app : App) (ps : Nat) :
    (app.page_up ps).input_mode = app.input_mode := by
  unfold App.page_up; dsimp only; split <;> rfl

@[simp] theorem home_input_mode (app : App) :
    (app.home).input_mode = app.input_mode := by
  unfold App.home; split <;> rfl

@[simp] theorem end_input_mode (app : App) :
    (app.end_).input_mode = app.input_mode := by
  unfold App.end_; dsimp only; split <;> rfl

@[simp] theorem next_kill_menu_state (app : App) :
    (App.next app).kill_menu_state = app.kill_menu_state := by
  unfold App.next; dsimp only; split <;> rfl

@[simp] theorem previous_kill_menu_state (app : App) :
    (App.previous app).kill_menu_state = app.kill_menu_state := by
  unfold App.previous; dsimp only; split <;> rfl

@[simp] theorem page_down_kill_menu_state (app : App) (ps : Nat) :
    (app.page_down ps).kill_menu_state = app.kill_menu_state := by
  unfold App.page_down; dsimp only; split <;> rfl

@[simp] theorem page_up_kill_menu_state (app : App) (ps : Nat) :
    (app.page_up ps).kill_menu_state = app.kill_menu_state := by
  unfold App.page_up; dsimp only; split <;> rfl

@[simp] theorem home_kill_menu_state (app : App) :
    (app.home).kill_menu_state = app.kill_menu_state := by
  unfold App.home; split <;> rfl

@[simp] theorem end_kill_menu_state (app : App) :
    (app.end_).kill_menu_state = app.kill_menu_state := by
  unfold App.end_; dsimp only; split <;> rfl

/-! ## Fixtures used by witnesses and counterexamples -/

/-- Fixture record: a root process. -/
def fxInit : ProcessInfo :=
  { pid := 1, ppid := 0, user := "root", status := "S", cpu := 2, mem := 1,
    virtual_mem := 100, cpu_time := 5, command := "init" }

/-- Fixture record: a child of `fxInit`. -/
def fxBash : ProcessInfo :=
  { pid := 2, ppid := 1, user := "alice", status := "R", cpu := 1, mem := 2,
    virtual_mem := 200, cpu_time := 3, command := "bash" }

/-- Fixture app in NORMAL mode with two processes and the cursor on row 1. -/
def appCursor1 : App := { App.new with processes := [fxInit, fxBash], state := some 1 }

/-! ## C1 — toggling the view mode and the cursor -/

/-- C1 (counterexample): toggling ViewMode with F5 in NORMAL mode does NOT
reset the cursor to 0: from a state with the cursor on row 1 the toggle
happens but the cursor stays on row 1. -/
theorem c1_toggle_cex :
    appCursor1.input_mode = InputMode.Normal ∧
    (handleKey okKill 10 (.F 5) appCursor1).tree_view = true ∧
    ¬ (handleKey okKill 10 (.F 5) appCursor1).state = some 0 := by
  decide

/-- C1 (amended): toggling ViewMode (F5 in NORMAL mode) flips `tree_view` and
leaves the cursor exactly as it was; it does not reset it to 0. -/
theorem c1_toggle_keeps_cursor (res : KillResult) (ps : Nat) (app : App)
    (h : app.input_mode = InputMode.Normal) :
    (handleKey res ps (.F 5) app).tree_view = !app.tree_view ∧
    (handleKey res ps (.F 5) app).state = app.state := by
  unfold handleKey
  rw [h]
  exact ⟨rfl, rfl⟩

/-- C1 witness: the amended statement at a concrete state. -/
theorem c1_toggle_keeps_cursor_witness :
    appCursor1.input_mode = InputMode.Normal ∧
    ((handleKey okKill 10 (.F 5) appCursor1).tree_view = !appCursor1.tree_view ∧
     (handleKey okKill 10 (.F 5) appCursor1).state = appCursor1.state) :=
  ⟨rfl, c1_toggle_keeps_cursor okKill 10 appCursor1 rfl⟩

/-! ## C9 / C10 — sort-key selection -/

/-- C9: selecting the already-active sort key flips the direction and keeps
the key; every sort-key selection resets the cursor to 0. -/
theorem c9_sort_reselect_flips (app : App) (k : SortBy) :
    (app.set_sort_by k).state = some 0 ∧
    (app.sort_by = k →
      (app.set_sort_by k).sort_order =
        (match app.sort_order with | .Asc => SortOrder.Desc | .Desc => SortOrder.Asc) ∧
      (app.set_sort_by k).sort_by = app.sort_by) := by
  unfold App.set_sort_by
  by_cases h : app.sort_by = k
  · simp [h]
  · simp [h]

/-- C9 witness: re-selecting the default CPU key at the initial state flips
Desc to Asc, keeps the key, and puts the cursor on 0. -/
theorem c9_sort_reselect_flips_witness :
    App.new.sort_by = SortBy.CPU ∧
    (App.new.set_sort_by .CPU).state = some 0 ∧
    (App.new.set_sort_by .CPU).sort_order = SortOrder.Asc ∧
    (App.new.set_sort_by .CPU).sort_by = App.new.sort_by := by
  refine ⟨rfl, (c9_sort_reselect_flips App.new .CPU).1, ?_,
    ((c9_sort_reselect_flips App.new .CPU).2 rfl).2⟩
  exact ((c9_sort_reselect_flips App.new .CPU).2 rfl).1

/-- C10: selecting a sort key different from the active one always sets the
direction to descending (whatever it was), installs the new key, and resets
the cursor to 0. -/
theorem c10_new_key_descending (app : App) (k : SortBy) (h : app.sort_by ≠ k) :
    (app.set_sort_by k).sort_by = k ∧
    (app.set_sort_by k).sort_order = SortOrder.Desc ∧
    (app.set_sort_by k).state = some 0 := by
  unfold App.set_sort_by
  simp [h]

/-- C10 witness: switching from the default CPU key to PID while the
direction is ascending. -/
theorem c10_new_key_descending_witness :
    { App.new with sort_order := SortOrder.Asc }.sort_by ≠ SortBy.PID ∧
    (({ App.new with sort_order := SortOrder.Asc } : App).set_sort_by .PID).sort_by = SortBy.PID ∧
    (({ App.new with sort_order := SortOrder.Asc } : App).set_sort_by .PID).sort_order = SortOrder.Desc ∧
    (({ App.new with sort_order := SortOrder.Asc } : App).set_sort_by .PID).state = some 0 :=
  ⟨by decide, c10_new_key_descending { App.new with sort_order := SortOrder.Asc } .PID (by decide)⟩

/-! ## C8 — SEARCH mode confirm / cancel -/

/-- C8: in SEARCH mode, Enter commits the buffer as the active filter (or
clears the filter when the buffer is empty), returns to NORMAL and resets the
cursor to 0; Esc returns to NORMAL leaving the active filter and the cursor
exactly as they were. -/
theorem c8_search_confirm_cancel (res : KillResult) (ps : Nat) (app : App)
    (h : app.input_mode = InputMode.Search) :
    ((handleKey res ps .Enter app).input_mode = InputMode.Normal ∧
     (handleKey res ps .Enter app).active_filter =
       (if app.search_query.isEmpty then none else some app.search_query) ∧
     (handleKey res ps .Enter app).state = some 0) ∧
    ((handleKey res ps .Esc app).input_mode = InputMode.Normal ∧
     (handleKey res ps .Esc app).active_filter = app.active_filter ∧
     (handleKey res ps .Esc app).state = app.state) := by
  unfold handleKey
  rw [h]
  exact ⟨⟨rfl, rfl, rfl⟩, ⟨rfl, rfl, rfl⟩⟩

/-- C8 witness: a concrete SEARCH-mode state with a pending query. -/
theorem c8_search_confirm_cancel_witness :
    ({ appCursor1 with input_mode := InputMode.Search, search_query := "sh" } : App).input_mode
      = InputMode.Search ∧
    (((handleKey okKill 10 .Enter { appCursor1 with input_mode := InputMode.Search, search_query := "sh" }).input_mode = InputMode.Normal ∧
      (handleKey okKill 10 .Enter { appCursor1 with input_mode := InputMode.Search, search_query := "sh" }).active_filter =
        (if ("sh" : String).isEmpty then none else some "sh") ∧
      (handleKey okKill 10 .Enter { appCursor1 with input_mode := InputMode.Search, search_query := "sh" }).state = some 0) ∧
     ((handleKey okKill 10 .Esc { appCursor1 with input_mode := InputMode.Search, search_query := "sh" }).input_mode = InputMode.Normal ∧
      (handleKey okKill 10 .Esc { appCursor1 with input_mode := InputMode.Search, search_query := "sh" }).active_filter =
        ({ appCursor1 with input_mode := InputMode.Search, search_query := "sh" } : App).active_filter ∧
      (handleKey okKill 10 .Esc { appCursor1 with input_mode := InputMode.Search, search_query := "sh" }).state =
        ({ appCursor1 with input_mode := InputMode.Search, search_query := "sh" } : App).state)) :=
  ⟨rfl, c8_search_confirm_cancel okKill 10 _ rfl⟩

/-! ## C6 — Selection Controller invariants -/

/-- The Selection Controller invariant: the cursor is defined and strictly
below the current view length. -/
def cursor_in_range (app : App) : Prop :=
  ∃ i, app.state = some i ∧ i < app.get_list_length

theorem next_state (app : App) (h : 0 < app.get_list_length) :
    (App.next app).state = some (match app.state with
      | some i => if i ≥ app.get_list_length - 1 then 0 else i + 1
      | none => 0) := by
  unfold App.next
  dsimp only
  rw [if_neg (by omega)]

theorem previous_state (app : App) (h : 0 < app.get_list_length) :
    (App.previous app).state = some (match app.state with
      | some i => if i = 0 then app.get_list_length - 1 else i - 1
      | none => app.get_list_length - 1) := by
  unfold App.previous
  dsimp only
  rw [if_neg (by omega)]

theorem page_down_state (app : App) (ps : Nat) (h : 0 < app.get_list_length) :
    (app.page_down ps).state
      = some (min ((app.state).getD 0 + ps) (app.get_list_length - 1)) := by
  unfold App.page_down
  dsimp only
  rw [if_neg (by omega)]

theorem page_up_state (app : App) (ps : Nat) (h : 0 < app.get_list_length) :
    (app.page_up ps).state = some ((app.state).getD 0 - ps) := by
  unfold App.page_up
  dsimp only
  rw [if_neg (by omega)]

theorem home_state (app : App) (h : 0 < app.get_list_length) :
    (app.home).state = some 0 := by
  unfold App.home
  rw [if_pos h]

theorem end_state (app : App) (h : 0 < app.get_list_length) :
    (app.end_).state = some (app.get_list_length - 1) := by
  unfold App.end_
  dsimp only
  rw [if_pos h]

theorem next_in_range (app : App) (h : 0 < app.get_list_length) :
    cursor_in_range (App.next app) := by
  unfold cursor_in_range
  rw [next_get_list_length, next_state app h]
  cases app.state with
  | none => exact ⟨0, rfl, h⟩
  | some i =>
    dsimp only
    split
    · exact ⟨0, rfl, h⟩
    · exact ⟨i + 1, rfl, by omega⟩

theorem previous_in_range (app : App) (h : 0 < app.get_list_length)
    (hinv : ∀ j, app.state = some j → j < app.get_list_length) :
    cursor_in_range (App.previous app) := by
  unfold cursor_in_range
  rw [previous_get_list_length, previous_state app h]
  cases hs : app.state with
  | none => exact ⟨app.get_list_length - 1, rfl, by omega⟩
  | some i =>
    have hi := hinv i hs
    dsimp only
    split
    · exact ⟨app.get_list_length - 1, rfl, by omega⟩
    · exact ⟨i - 1, rfl, by omega⟩

theorem page_down_in_range (app : App) (ps : Nat) (h : 0 < app.get_list_length) :
    cursor_in_range (app.page_down ps) := by
  unfold cursor_in_range
  rw [page_down_get_list_length, page_down_state app ps h]
  exact ⟨_, rfl, by omega⟩

theorem page_up_in_range (app : App) (ps : Nat) (h : 0 < app.get_list_length)
    (hinv : ∀ j, app.state = some j → j < app.get_list_length) :
    cursor_in_range (app.page_up ps) := by
  unfold cursor_in_range
  rw [page_up_get_list_length, page_up_state app ps h]
  refine ⟨_, rfl, ?_⟩
  cases hs : app.state with
  | none => simpa using h
  | some i =>
    have hi := hinv i hs
    simp only [Option.getD_some]
    omega

theorem home_in_range (app : App) (h : 0 < app.get_list_length) :
    cursor_in_range app.home := by
  unfold cursor_in_range
  rw [home_get_list_length, home_state app h]
  exact ⟨0, rfl, h⟩

theorem end_in_range (app : App) (h : 0 < app.get_list_length) :
    cursor_in_range app.end_ := by
  unfold cursor_in_range
  rw [end_get_list_length, end_state app h]
  exact ⟨app.get_list_length - 1, rfl, by omega⟩

theorem next_noop (app : App) (h : app.get_list_length = 0) : App.next app = app := by
  unfold App.next
  dsimp only
  rw [if_pos h]

theorem previous_noop (app : App) (h : app.get_list_length = 0) : App.previous app = app := by
  unfold App.previous
  dsimp only
  rw [if_pos h]

theorem page_down_noop (app : App) (ps : Nat) (h : app.get_list_length = 0) :
    app.page_down ps = app := by
  unfold App.page_down
  dsimp only
  rw [if_pos h]

theorem page_up_noop (app : App) (ps : Nat) (h : app.get_list_length = 0) :
    app.page_up ps = app := by
  unfold App.page_up
  dsimp only
  rw [if_pos h]

theorem home_noop (app : App) (h : app.get_list_length = 0) : app.home = app := by
  unfold App.home
  rw [if_neg (by omega)]

theorem end_noop (app : App) (h : app.get_list_length = 0) : app.end_ = app := by
  unfold App.end_
  dsimp only
  rw [if_neg (by omega)]

/-- Fixture app with a stale out-of-range cursor: two processes but the
cursor index left at 5 (the situation the spec itself describes after a
background refresh shrinks the list). -/
def appStale : App := { App.new with processes := [fxInit, fxBash], state := some 5 }

/-- C6 (counterexample): `move_previous` does not clamp.  Applied to a state
with view length 2 (positive) and the cursor left at the stale index 5, it
yields cursor 4, which is not `< length`.  So not every operation applied to
a state with positive view length restores `0 <= cursor < length`. -/
theorem c6_invariant_cex :
    0 < appStale.get_list_length ∧
    (App.previous appStale).state = some 4 ∧
    (App.previous appStale).get_list_length = 2 ∧
    ¬ (4 < 2) := by
  decide

/-- C6 (amended): when the view length is positive, every Selection
Controller operation yields a defined cursor with `0 <= cursor < length`,
provided the starting cursor is undefined or itself in range (so the
invariant is preserved by every operation; `move_next`, `page_down`, `home`
and `end` in fact restore it from any starting cursor, but `move_previous`
and `page_up` only decrement a stale out-of-range cursor).  When the view
length is 0 every operation is a no-op, so an undefined cursor stays
undefined. -/
theorem c6_cursor_invariant (app : App) (ps : Nat)
    (hinv : ∀ j, app.state = some j → j < app.get_list_length) :
    (0 < app.get_list_length →
      cursor_in_range (App.next app) ∧ cursor_in_range (App.previous app) ∧
      cursor_in_range (app.page_down ps) ∧ cursor_in_range (app.page_up ps) ∧
      cursor_in_range app.home ∧ cursor_in_range app.end_) ∧
    (app.get_list_length = 0 →
      App.next app = app ∧ App.previous app = app ∧ app.page_down ps = app ∧
      app.page_up ps = app ∧ app.home = app ∧ app.end_ = app) := by
  constructor
  · intro h
    exact ⟨next_in_range app h, previous_in_range app h hinv,
      page_down_in_range app ps h, page_up_in_range app ps h hinv,
      home_in_range app h, end_in_range app h⟩
  · intro h
    exact ⟨next_noop app h, previous_noop app h, page_down_noop app ps h,
      page_up_noop app ps h, home_noop app h, end_noop app h⟩

/-- C6 witness: the amended statement at a concrete in-range state (two
processes, cursor on row 1), and at the empty initial state. -/
theorem c6_cursor_invariant_witness :
    (∀ j, appCursor1.state = some j → j < appCursor1.get_list_length) ∧
    ((0 < appCursor1.get_list_length →
      cursor_in_range (App.next appCursor1) ∧ cursor_in_range (App.previous appCursor1) ∧
      cursor_in_range (appCursor1.page_down 3) ∧ cursor_in_range (appCursor1.page_up 3) ∧
      cursor_in_range appCursor1.home ∧ cursor_in_range appCursor1.end_) ∧
    (appCursor1.get_list_length = 0 →
      App.next appCursor1 = appCursor1 ∧ App.previous appCursor1 = appCursor1 ∧
      appCursor1.page_down 3 = appCursor1 ∧ appCursor1.page_up 3 = appCursor1 ∧
      appCursor1.home = appCursor1 ∧ appCursor1.end_ = appCursor1)) :=
  ⟨by decide, c6_cursor_invariant appCursor1 3 (by decide)⟩

/-! ## C7 — the wrap law of `move_next` -/

theorem next_iterate_state (app : App) (i : Nat)
    (h : 0 < app.get_list_length) (hs : app.state = some i)
    (hi : i < app.get_list_length) :
    ∀ k, (App.next^[k] app).state = some ((i + k) % app.get_list_length) ∧
         (App.next^[k] app).get_list_length = app.get_list_length := by
  intro k
  induction k with
  | zero =>
    simp only [Function.iterate_zero, id_eq, hs]
    rw [Nat.add_zero, Nat.mod_eq_of_lt hi]
    exact ⟨rfl, trivial⟩
  | succ k ih =>
    rw [Function.iterate_succ_apply']
    obtain ⟨ihs, ihl⟩ := ih
    have hb : 0 < (App.next^[k] app).get_list_length := by rw [ihl]; exact h
    have hstep := next_state (App.next^[k] app) hb
    rw [ihs] at hstep
    dsimp only at hstep
    constructor
    · rw [ihl] at hstep
      rw [hstep]
      congr 1
      set n := app.get_list_length with hn
      by_cases hc : (i + k) % n ≥ n - 1
      · have h1 : (i + k) % n < n := Nat.mod_lt _ h
        have h2 : (i + k) % n = n - 1 := by omega
        rw [if_pos hc]
        have : (i + (k + 1)) % n = ((i + k) % n + 1) % n := by
          rw [← Nat.add_assoc, Nat.mod_add_mod]
        rw [this, h2, Nat.sub_add_cancel h, Nat.mod_self]
      · rw [if_neg hc]
        have h1 : (i + k) % n < n := Nat.mod_lt _ h
        have hstep2 : (i + (k + 1)) % n = ((i + k) % n + 1) % n := by
          rw [← Nat.add_assoc, Nat.mod_add_mod]
        rw [hstep2]
        exact (Nat.mod_eq_of_lt (by omega)).symm
    · rw [next_get_list_length, ihl]

/-- C7 (counterexample): for the undefined starting cursor the wrap law
fails.  With view length 2 and cursor undefined, applying `move_next` twice
ends on row 1, not back at the undefined starting value (and not at 0
either). -/
theorem c7_wrap_cex :
    ({ App.new with processes := [fxInit, fxBash] } : App).get_list_length = 2 ∧
    ({ App.new with processes := [fxInit, fxBash] } : App).state = none ∧
    (App.next^[2] { App.new with processes := [fxInit, fxBash] }).state = some 1 ∧
    ¬ (App.next^[2] { App.new with processes := [fxInit, fxBash] }).state
        = ({ App.new with processes := [fxInit, fxBash] } : App).state := by
  refine ⟨rfl, rfl, ?_, ?_⟩
  · decide
  · decide

/-- C7 (amended): for every view length ≥ 1 and every *defined, in-range*
starting cursor, applying `move_next` exactly `length` times returns the
cursor to its starting value; `move_next` sends the undefined cursor to 0,
wraps from the last index to 0, and `move_previous` wraps from 0 to the last
index.  (For the undefined — or a stale out-of-range — starting cursor the
round trip instead ends at `length - 1`, so the wrap law holds only on
in-range cursors.) -/
theorem c7_wrap_law (app : App) (i : Nat) (h : 0 < app.get_list_length) :
    (app.state = some i → i < app.get_list_length →
      (App.next^[app.get_list_length] app).state = some i) ∧
    (app.state = none → (App.next app).state = some 0) ∧
    (app.state = some (app.get_list_length - 1) → (App.next app).state = some 0) ∧
    (app.state = some 0 → (App.previous app).state = some (app.get_list_length - 1)) := by
  refine ⟨?_, ?_, ?_, ?_⟩
  · intro hs hi
    rw [(next_iterate_state app i h hs hi app.get_list_length).1]
    rw [Nat.add_mod_right, Nat.mod_eq_of_lt hi]
  · intro hs
    rw [next_state app h, hs]
  · intro hs
    rw [next_state app h, hs]
    dsimp only
    rw [if_pos (Nat.le_refl _)]
  · intro hs
    rw [previous_state app h, hs]
    dsimp only
    rw [if_pos rfl]

/-- C7 witness: the amended statement at a concrete state with two processes
and the cursor on row 1. -/
theorem c7_wrap_law_witness :
    0 < appCursor1.get_list_length ∧
    ((appCursor1.state = some 1 → 1 < appCursor1.get_list_length →
       (App.next^[appCursor1.get_list_length] appCursor1).state = some 1) ∧
     (appCursor1.state = none → (App.next appCursor1).state = some 0) ∧
     (appCursor1.state = some (appCursor1.get_list_length - 1) →
       (App.next appCursor1).state = some 0) ∧
     (appCursor1.state = some 0 →
       (App.previous appCursor1).state = some (appCursor1.get_list_length - 1))) :=
  ⟨by decide, c7_wrap_law appCursor1 1 (by decide)⟩


/-! ## C2 — entering the kill menu -/

set_option maxHeartbeats 1000000 in
/-- C2 (amended): from NORMAL mode, a key transitions to KILL_MENU only when
a process is currently selected (`selected_pid` is defined), and the
transition leaves the kill-signal cursor exactly where it was — it is
initialized to the catalog's first entry by `App::new` but is *not* reset on
each menu open. -/
theorem c2_kill_menu_entry (res : KillResult) (ps : Nat) (k : KeyCode) (app : App)
    (h : app.input_mode = InputMode.Normal) :
    ((handleKey res ps k app).input_mode = InputMode.KillMenu →
      app.selected_pid.isSome = true ∧
      (handleKey res ps k app).kill_menu_state = app.kill_menu_state) ∧
    App.new.kill_menu_state = some 0 := by
  refine ⟨?_, rfl⟩
  unfold handleKey
  rw [h]
  dsimp only
  cases k with
  | Char c =>
    unfold handleNormalKey
    dsimp only
    split
    · intro hm; rw [h] at hm; exact InputMode.noConfusion hm
    split
    · intro hm; exact InputMode.noConfusion hm
    split
    · intro hm; rw [set_sort_by_input_mode, h] at hm; exact InputMode.noConfusion hm
    split
    · intro hm; rw [set_sort_by_input_mode, h] at hm; exact InputMode.noConfusion hm
    split
    · intro hm; rw [set_sort_by_input_mode, h] at hm; exact InputMode.noConfusion hm
    split
    · intro hm; rw [set_sort_by_input_mode, h] at hm; exact InputMode.noConfusion hm
    split
    · intro hm; rw [set_sort_by_input_mode, h] at hm; exact InputMode.noConfusion hm
    split
    · intro hm; rw [set_sort_by_input_mode, h] at hm; exact InputMode.noConfusion hm
    · intro hm; rw [h] at hm; exact InputMode.noConfusion hm
  | F n =>
    unfold handleNormalKey
    try dsimp only
    split
    · intro hm; rw [h] at hm; exact InputMode.noConfusion hm
    split
    · intro hm; try dsimp only at hm
      rw [h] at hm; exact InputMode.noConfusion hm
    split
    · split
      · intro _
        exact ⟨by assumption, rfl⟩
      · intro hm; rw [h] at hm; exact InputMode.noConfusion hm
    · intro hm; rw [h] at hm; exact InputMode.noConfusion hm
  | Esc =>
    unfold handleNormalKey
    dsimp only
    split
    · intro hm; try dsimp only at hm
      rw [h] at hm; exact InputMode.noConfusion hm
    · intro hm; try dsimp only at hm
      rw [h] at hm; exact InputMode.noConfusion hm
  | Down =>
    intro hm
    rw [handleNormalKey, next_input_mode, h] at hm
    exact InputMode.noConfusion hm
  | Up =>
    intro hm
    rw [handleNormalKey, previous_input_mode, h] at hm
    exact InputMode.noConfusion hm
  | PageDown =>
    intro hm
    rw [handleNormalKey, page_down_input_mode, h] at hm
    exact InputMode.noConfusion hm
  | PageUp =>
    intro hm
    rw [handleNormalKey, page_up_input_mode, h] at hm
    exact InputMode.noConfusion hm
  | Home =>
    intro hm
    rw [handleNormalKey, home_input_mode, h] at hm
    exact InputMode.noConfusion hm
  | End =>
    intro hm
    rw [handleNormalKey, end_input_mode, h] at hm
    exact InputMode.noConfusion hm
  | Enter =>
    intro hm
    unfold handleNormalKey at hm
    rw [h] at hm
    exact InputMode.noConfusion hm
  | Backspace =>
    intro hm
    unfold handleNormalKey at hm
    rw [h] at hm
    exact InputMode.noConfusion hm

/-- C2 witness: the amended statement at a concrete NORMAL state with a
selected process, opened with F9. -/
theorem c2_kill_menu_entry_witness :
    appCursor1.input_mode = InputMode.Normal ∧
    (((handleKey okKill 10 (.F 9) appCursor1).input_mode = InputMode.KillMenu →
        appCursor1.selected_pid.isSome = true ∧
        (handleKey okKill 10 (.F 9) appCursor1).kill_menu_state = appCursor1.kill_menu_state) ∧
      App.new.kill_menu_state = some 0) :=
  ⟨rfl, c2_kill_menu_entry okKill 10 (.F 9) appCursor1 rfl⟩

/-- A concrete key trace: starting from the initial state holding one
sampled process, select it (Down), open the kill menu (F9), move the kill
cursor down twice, cancel (Esc), and open the kill menu again (F9). -/
def c2TraceApp : App :=
  handleKey okKill 10 (.F 9)
    (handleKey okKill 10 .Esc
      (handleKey okKill 10 .Down
        (handleKey okKill 10 .Down
          (handleKey okKill 10 (.F 9)
            (handleKey okKill 10 .Down
              { App.new with processes := [fxInit] })))))

/-- C2 (counterexample): the kill-signal cursor does *not* point at the
catalog's first entry after every NORMAL → KILL_MENU transition.  Reopening
the menu after having moved its cursor and cancelled finds the cursor still
on entry 2. -/
theorem c2_kill_menu_cex :
    c2TraceApp.input_mode = InputMode.KillMenu ∧
    c2TraceApp.kill_menu_state = some 2 ∧
    ¬ c2TraceApp.kill_menu_state = some 0 := by
  decide

/-! ## C3 — the FLAT-mode view: filter + sort -/

theorem cmpOf_eq_lt_iff {α : Type} [LinearOrder α] (a b : α) : cmpOf a b = .lt ↔ a < b := by
  unfold cmpOf
  split_ifs with h1 h2
  · exact iff_of_true rfl h1
  · exact iff_of_false (by decide) (by rw [h2]; exact lt_irrefl b)
  · exact iff_of_false (by decide) h1

theorem cmpOf_eq_gt_iff {α : Type} [LinearOrder α] (a b : α) : cmpOf a b = .gt ↔ b < a := by
  unfold cmpOf
  split_ifs with h1 h2
  · exact iff_of_false (by decide) (lt_asymm h1)
  · exact iff_of_false (by decide) (by rw [h2]; exact lt_irrefl b)
  · exact iff_of_true rfl (lt_of_le_of_ne (not_lt.mp h1) (fun he => h2 he.symm))

theorem ordering_swap_eq_gt (o : Ordering) : o.swap = .gt ↔ o = .lt := by
  cases o <;> simp [Ordering.swap]

theorem bne_gt_iff (o : Ordering) : (o != Ordering.gt) = true ↔ o ≠ Ordering.gt := by
  cases o <;> decide

theorem asc_le_iff {α : Type} [LinearOrder α] (x y : α) :
    (ord_apply .Asc (cmpOf x y) != Ordering.gt) = true ↔ x ≤ y := by
  show (cmpOf x y != Ordering.gt) = true ↔ x ≤ y
  rw [bne_gt_iff, Ne, cmpOf_eq_gt_iff, not_lt]

theorem desc_le_iff {α : Type} [LinearOrder α] (x y : α) :
    (ord_apply .Desc (cmpOf x y) != Ordering.gt) = true ↔ y ≤ x := by
  show ((cmpOf x y).swap != Ordering.gt) = true ↔ y ≤ x
  rw [bne_gt_iff, Ne, ordering_swap_eq_gt, cmpOf_eq_lt_iff, not_lt]

theorem proc_le_total (k : SortBy) (o : SortOrder) (a b : ProcessInfo) :
    (proc_le k o a b || proc_le k o b a) = true := by
  rw [Bool.or_eq_true]
  cases k <;> cases o <;>
    simp only [proc_le, proc_cmp, asc_le_iff, desc_le_iff] <;>
    exact le_total _ _

theorem proc_le_trans (k : SortBy) (o : SortOrder) (a b c : ProcessInfo)
    (hab : proc_le k o a b = true) (hbc : proc_le k o b c = true) :
    proc_le k o a c = true := by
  cases k <;> cases o <;>
    simp only [proc_le, proc_cmp, asc_le_iff, desc_le_iff] at hab hbc ⊢ <;>
    first
      | exact le_trans hab hbc
      | exact le_trans hbc hab

/-- `filtered_processes` is the filter by the active pattern (with no active
filter, every record passes). -/
theorem filtered_eq_filter (app : App) :
    app.filtered_processes = app.processes.filter (matches_filter app.active_filter) := by
  unfold App.filtered_processes matches_filter
  cases app.active_filter with
  | none => simp
  | some s => rfl

/-- The order requested by a `(SortKey, SortDirection)` pair on one sort
field: plain `≤` when ascending, reversed when descending. -/
def dirLE {α : Type} [LE α] (o : SortOrder) (x y : α) : Prop :=
  match o with
  | .Asc => x ≤ y
  | .Desc => y ≤ x

/-- C3: the FLAT-mode view contains exactly the records of the snapshot
whose lower-cased command line contains the lower-cased filter pattern (all
records when no filter is set), its length is the count of matching records,
and it is ordered consistently with the active sort key and direction —
numeric order on pid/cpu/mem/time, lexical order on user/command, reversed
when descending. -/
theorem c3_flat_view (snap : List ProcessInfo) (f : Option String)
    (k : SortBy) (o : SortOrder) :
    (∀ p, p ∈ render_flat snap k o f ↔ p ∈ snap ∧ matches_filter f p = true) ∧
    (render_flat snap k o f).length = snap.countP (fun p => matches_filter f p) ∧
    (k = .PID → (render_flat snap k o f).Pairwise (fun a b => dirLE o a.pid b.pid)) ∧
    (k = .User → (render_flat snap k o f).Pairwise (fun a b => dirLE o a.user b.user)) ∧
    (k = .CPU → (render_flat snap k o f).Pairwise (fun a b => dirLE o a.cpu b.cpu)) ∧
    (k = .MEM → (render_flat snap k o f).Pairwise (fun a b => dirLE o a.mem b.mem)) ∧
    (k = .Time → (render_flat snap k o f).Pairwise (fun a b => dirLE o a.cpu_time b.cpu_time)) ∧
    (k = .Command → (render_flat snap k o f).Pairwise (fun a b => dirLE o a.command b.command)) := by
  have hview : render_flat snap k o f
      = (snap.mergeSort (proc_le k o)).filter (matches_filter f) := by
    unfold render_flat App.update_data
    rw [filtered_eq_filter]
  have hperm := List.mergeSort_perm snap (proc_le k o)
  have hpair : (render_flat snap k o f).Pairwise (fun a b => proc_le k o a b = true) := by
    rw [hview]
    exact List.Pairwise.sublist (List.filter_sublist _)
      (List.sorted_mergeSort (proc_le_trans k o) (proc_le_total k o) snap)
  refine ⟨?_, ?_, ?_, ?_, ?_, ?_, ?_, ?_⟩
  · intro p
    rw [hview, List.mem_filter, hperm.mem_iff]
  · rw [hview, ← List.countP_eq_length_filter, hperm.countP_eq]
  · rintro rfl
    refine hpair.imp ?_
    intro a b hab
    cases o <;>
      simpa only [proc_le, proc_cmp, asc_le_iff, desc_le_iff, dirLE] using hab
  · rintro rfl
    refine hpair.imp ?_
    intro a b hab
    cases o <;>
      simpa only [proc_le, proc_cmp, asc_le_iff, desc_le_iff, dirLE] using hab
  · rintro rfl
    refine hpair.imp ?_
    intro a b hab
    cases o <;>
      simpa only [proc_le, proc_cmp, asc_le_iff, desc_le_iff, dirLE] using hab
  · rintro rfl
    refine hpair.imp ?_
    intro a b hab
    cases o <;>
      simpa only [proc_le, proc_cmp, asc_le_iff, desc_le_iff, dirLE] using hab
  · rintro rfl
    refine hpair.imp ?_
    intro a b hab
    cases o <;>
      simpa only [proc_le, proc_cmp, asc_le_iff, desc_le_iff, dirLE] using hab
  · rintro rfl
    refine hpair.imp ?_
    intro a b hab
    cases o <;>
      simpa only [proc_le, proc_cmp, asc_le_iff, desc_le_iff, dirLE] using hab

/-! ## Tree view: basic structure of the traversal -/

theorem pid_le_trans (a b c : ProcessInfo)
    (hab : pid_le a b = true) (hbc : pid_le b c = true) : pid_le a c = true := by
  unfold pid_le at *
  rw [decide_eq_true_eq] at *
  exact le_trans hab hbc

theorem pid_le_total (a b : ProcessInfo) : (pid_le a b || pid_le b a) = true := by
  unfold pid_le
  rw [Bool.or_eq_true, decide_eq_true_eq, decide_eq_true_eq]
  exact le_total _ _

theorem mem_rootsSorted (procs : List ProcessInfo) (p : ProcessInfo) :
    p ∈ rootsSorted procs ↔ p ∈ procs ∧ isRoot procs p = true := by
  unfold rootsSorted
  rw [(List.mergeSort_perm _ _).mem_iff, List.mem_filter]

theorem rootsSorted_sorted (procs : List ProcessInfo) :
    (rootsSorted procs).Pairwise (fun a b => a.pid ≤ b.pid) := by
  refine (List.sorted_mergeSort pid_le_trans pid_le_total _).imp ?_
  intro a b h
  exact of_decide_eq_true h

theorem procs_nodup (procs : List ProcessInfo)
    (hnd : (procs.map ProcessInfo.pid).Nodup) : procs.Nodup :=
  List.Nodup.of_map _ hnd

theorem rootsSorted_nodup (procs : List ProcessInfo)
    (hnd : (procs.map ProcessInfo.pid).Nodup) : (rootsSorted procs).Nodup := by
  unfold rootsSorted
  exact ((List.mergeSort_perm _ _).symm).nodup
    ((List.filter_sublist procs).nodup (procs_nodup procs hnd))

theorem children_mem (procs : List ProcessInfo) (pidKey : Nat) (c : ProcessInfo) :
    c ∈ childrenSorted procs pidKey ↔
      c ∈ procs ∧ isRoot procs c = false ∧ c.ppid = pidKey := by
  unfold childrenSorted childrenList
  rw [(List.mergeSort_perm _ _).mem_iff, List.mem_filter, Bool.and_eq_true,
    Bool.not_eq_true', beq_iff_eq]

theorem childrenSorted_nodup (procs : List ProcessInfo)
    (hnd : (procs.map ProcessInfo.pid).Nodup) (pidKey : Nat) :
    (childrenSorted procs pidKey).Nodup := by
  unfold childrenSorted childrenList
  exact ((List.mergeSort_perm _ _).symm).nodup
    ((List.filter_sublist procs).nodup (procs_nodup procs hnd))

theorem childrenSorted_sorted (procs : List ProcessInfo) (pidKey : Nat) :
    (childrenSorted procs pidKey).Pairwise (fun a b => a.pid ≤ b.pid) := by
  refine (List.sorted_mergeSort pid_le_trans pid_le_total _).imp ?_
  intro a b h
  exact of_decide_eq_true h

theorem add_tree_cons (procs : List ProcessInfo) (fuel d : Nat) (x : ProcessInfo) :
    add_tree_children procs (fuel + 1) d x
      = (d, x) :: (childrenSorted procs x.pid).flatMap (add_tree_children procs fuel (d + 1)) :=
  rfl

theorem add_tree_depth_ge (procs : List ProcessInfo) :
    ∀ fuel d x e q, (e, q) ∈ add_tree_children procs fuel d x → d ≤ e := by
  intro fuel
  induction fuel with
  | zero =>
    intro d x e q h
    simp [add_tree_children] at h
  | succ fuel ih =>
    intro d x e q h
    rw [add_tree_cons] at h
    rcases List.mem_cons.mp h with heq | hmem
    · injection heq with h1 h2
      omega
    · obtain ⟨c, _, hq⟩ := List.mem_flatMap.mp hmem
      have := ih (d + 1) c e q hq
      omega

/-- One traversal block: the sub-walk `add_tree_children` performs from node
`x` at depth `d`, with the fuel the full traversal reaches it with. -/
def treeBlock (procs : List ProcessInfo) (d : Nat) (x : ProcessInfo) :
    List (Nat × ProcessInfo) :=
  add_tree_children procs (procs.length - d) d x

theorem tree_eq_blocks (procs : List ProcessInfo) :
    tree_ordered_processes procs
      = (rootsSorted procs).flatMap (fun r => treeBlock procs 0 r) := by
  unfold tree_ordered_processes treeBlock
  rw [Nat.sub_zero]

/-- C4 helper: the depth-0 entries of the tree view are exactly the sorted
roots, in order. -/
theorem tree_filter_depth0 (procs : List ProcessInfo) :
    (tree_ordered_processes procs).filter (fun z => z.1 == 0)
      = (rootsSorted procs).map (fun p => ((0 : Nat), p)) := by
  unfold tree_ordered_processes
  have hmem : ∀ r ∈ rootsSorted procs, r ∈ procs := by
    intro r hr
    exact ((mem_rootsSorted procs r).mp hr).1
  revert hmem
  generalize rootsSorted procs = rs
  intro hmem
  induction rs with
  | nil => rfl
  | cons r rs ih =>
    rw [List.flatMap_cons, List.filter_append, List.map_cons,
      ih (fun x hx => hmem x (List.mem_cons_of_mem r hx))]
    have hlen : ∃ m, procs.length = m + 1 := by
      have hr := hmem r (List.mem_cons_self r rs)
      cases hp : procs.length with
      | zero =>
        rw [List.length_eq_zero] at hp
        subst hp
        simp at hr
      | succ m => exact ⟨m, rfl⟩
    obtain ⟨m, hm⟩ := hlen
    rw [hm, add_tree_cons]
    rw [List.filter_cons]
    simp only [beq_self_eq_true, if_true]
    have hnil : List.filter (fun z => z.1 == 0)
        ((childrenSorted procs r.pid).flatMap (add_tree_children procs m (0 + 1))) = [] := by
      rw [List.filter_eq_nil_iff]
      intro z hz
      obtain ⟨c, _, hzc⟩ := List.mem_flatMap.mp hz
      have hge := add_tree_depth_ge procs m (0 + 1) c z.1 z.2 (by simpa using hzc)
      simp only [beq_iff_eq]
      omega
    rw [hnil]
    rfl

/-! ## Depth of a record along its parent chain -/

theorem find_pid_unique (procs : List ProcessInfo)
    (hnd : (procs.map ProcessInfo.pid).Nodup) (x : ProcessInfo) (hx : x ∈ procs) :
    procs.find? (fun r => r.pid == x.pid) = some x := by
  induction procs with
  | nil => cases hx
  | cons y ys ih =>
    rw [List.map_cons, List.nodup_cons] at hnd
    by_cases hpy : (y.pid == x.pid) = true
    · rcases List.mem_cons.mp hx with rfl | hxs
      · simp [List.find?, hpy]
      · exfalso
        have hmemmap : x.pid ∈ ys.map ProcessInfo.pid := List.mem_map_of_mem _ hxs
        exact hnd.1 (beq_iff_eq.mp hpy ▸ hmemmap)
    · rcases List.mem_cons.mp hx with rfl | hxs
      · exact absurd (by simp) hpy
      · have hstep : List.find? (fun r => r.pid == x.pid) (y :: ys)
            = List.find? (fun r => r.pid == x.pid) ys := by
          simp [List.find?, hpy]
        rw [hstep]
        exact ih hnd.2 hxs

theorem depthOfAux_lt (procs : List ProcessInfo) :
    ∀ k p d, depthOfAux procs k p = some d → d < k := by
  intro k
  induction k with
  | zero =>
    intro p d h
    simp [depthOfAux] at h
  | succ k ih =>
    intro p d h
    rw [depthOfAux] at h
    split at h
    · injection h with h0
      omega
    · split at h
      · rename_i q hq
        rw [Option.map_eq_some'] at h
        obtain ⟨d', hd', rfl⟩ := h
        have := ih q d' hd'
        omega
      · exact Option.noConfusion h

theorem depthOfAux_mono (procs : List ProcessInfo) :
    ∀ k p d, depthOfAux procs k p = some d →
      ∀ k', d < k' → depthOfAux procs k' p = some d := by
  intro k
  induction k with
  | zero =>
    intro p d h
    simp [depthOfAux] at h
  | succ k ih =>
    intro p d h k' hk'
    obtain ⟨k'', rfl⟩ : ∃ k'', k' = k'' + 1 := ⟨k' - 1, by omega⟩
    rw [depthOfAux] at h
    rw [depthOfAux]
    split at h
    · rename_i hroot
      rw [if_pos hroot]
      exact h
    · rename_i hroot
      rw [if_neg hroot]
      split at h
      · rename_i q hq
        rw [Option.map_eq_some'] at h
        obtain ⟨d', hd', rfl⟩ := h
        rw [ih q d' hd' k'' (by omega)]
        rfl
      · exact Option.noConfusion h

theorem depth_chain (procs : List ProcessInfo)
    (hnd : (procs.map ProcessInfo.pid).Nodup) :
    ∀ k p d, p ∈ procs → depthOfAux procs k p = some d →
      ∃ ch : List ProcessInfo, ch.length = d + 1 ∧ (∀ q ∈ ch, q ∈ procs) ∧
        ch.map (fun q => depthOf procs q) = ((List.range (d + 1)).reverse).map some := by
  intro k
  induction k with
  | zero =>
    intro p d hp h
    simp [depthOfAux] at h
  | succ k ih =>
    intro p d hp h
    rw [depthOfAux] at h
    split at h
    · rename_i hroot
      injection h with h0
      subst h0
      refine ⟨[p], rfl, ?_, ?_⟩
      · intro q hq
        rcases List.mem_cons.mp hq with rfl | h'
        · exact hp
        · exact absurd h' (List.not_mem_nil q)
      · have hd0 : depthOf procs p = some 0 := by
          unfold depthOf
          rw [depthOfAux, if_pos hroot]
        simp [hd0, List.range_succ]
    · rename_i hroot
      split at h
      · rename_i q hq
        rw [Option.map_eq_some'] at h
        obtain ⟨d', hd', rfl⟩ := h
        have hqmem : q ∈ procs := List.mem_of_find?_eq_some hq
        obtain ⟨ch', hlen, hsub, hmap⟩ := ih q d' hqmem hd'
        have hchnd : ch'.Nodup := by
          apply List.Nodup.of_map (fun q => depthOf procs q)
          rw [hmap]
          exact ((List.nodup_reverse).mpr (List.nodup_range _)).map (Option.some_injective _)
        have hle : d' + 1 ≤ procs.length := by
          have hsp := (List.subperm_of_subset hchnd (fun q hq => hsub q hq)).length_le
          omega
        have hdp : depthOf procs p = some (d' + 1) := by
          unfold depthOf
          rw [depthOfAux, if_neg hroot, hq]
          dsimp only
          rw [depthOfAux_mono procs k q d' hd' procs.length (by omega)]
          rfl
        refine ⟨p :: ch', by simp [hlen], ?_, ?_⟩
        · intro a ha
          rcases List.mem_cons.mp ha with rfl | hach
          · exact hp
          · exact hsub a hach
        · rw [List.map_cons, hmap, hdp]
          simp [List.range_succ]
      · exact Option.noConfusion h

theorem depthOf_le (procs : List ProcessInfo)
    (hnd : (procs.map ProcessInfo.pid).Nodup) (p : ProcessInfo) (hp : p ∈ procs)
    (d : Nat) (h : depthOf procs p = some d) : d + 1 ≤ procs.length := by
  obtain ⟨ch, hlen, hsub, hmap⟩ := depth_chain procs hnd (procs.length + 1) p d hp h
  have hchnd : ch.Nodup := by
    apply List.Nodup.of_map (fun q => depthOf procs q)
    rw [hmap]
    exact ((List.nodup_reverse).mpr (List.nodup_range _)).map (Option.some_injective _)
  have hsp := (List.subperm_of_subset hchnd (fun q hq => hsub q hq)).length_le
  omega

theorem depthOf_child (procs : List ProcessInfo)
    (hnd : (procs.map ProcessInfo.pid).Nodup) (x : ProcessInfo) (hx : x ∈ procs)
    (d : Nat) (hd : depthOf procs x = some d)
    (c : ProcessInfo) (hc : c ∈ childrenSorted procs x.pid) :
    depthOf procs c = some (d + 1) := by
  obtain ⟨hcp, hcr, hcpp⟩ := (children_mem procs x.pid c).mp hc
  have hdn : d + 1 ≤ procs.length := depthOf_le procs hnd x hx d hd
  show depthOfAux procs (procs.length + 1) c = some (d + 1)
  rw [depthOfAux, if_neg (by rw [hcr]; exact Bool.false_ne_true), hcpp,
    find_pid_unique procs hnd x hx]
  dsimp only
  rw [depthOfAux_mono procs (procs.length + 1) x d hd procs.length (by omega)]
  rfl

theorem treeBlock_cons (procs : List ProcessInfo)
    (hnd : (procs.map ProcessInfo.pid).Nodup) (x : ProcessInfo) (hx : x ∈ procs)
    (d : Nat) (hd : depthOf procs x = some d) :
    treeBlock procs d x
      = (d, x) :: (childrenSorted procs x.pid).flatMap (fun c => treeBlock procs (d + 1) c) := by
  have hdn : d + 1 ≤ procs.length := depthOf_le procs hnd x hx d hd
  unfold treeBlock
  have hfe : procs.length - d = (procs.length - (d + 1)) + 1 := by omega
  rw [hfe, add_tree_cons]

/-! ## Membership, true depth, and parent links in the traversal -/

theorem add_tree_mem (procs : List ProcessInfo)
    (hnd : (procs.map ProcessInfo.pid).Nodup) :
    ∀ fuel d x, x ∈ procs → depthOf procs x = some d →
      ∀ e q, (e, q) ∈ add_tree_children procs fuel d x →
        q ∈ procs ∧ depthOf procs q = some e := by
  intro fuel
  induction fuel with
  | zero =>
    intro d x _ _ e q h
    simp [add_tree_children] at h
  | succ fuel ih =>
    intro d x hx hd e q h
    rw [add_tree_cons] at h
    rcases List.mem_cons.mp h with heq | hmem
    · injection heq with h1 h2
      subst h1
      subst h2
      exact ⟨hx, hd⟩
    · obtain ⟨c, hc, hq⟩ := List.mem_flatMap.mp hmem
      exact ih (d + 1) c ((children_mem procs x.pid c).mp hc).1
        (depthOf_child procs hnd x hx d hd c hc) e q hq

theorem tree_mem (procs : List ProcessInfo)
    (hnd : (procs.map ProcessInfo.pid).Nodup) :
    ∀ e q, (e, q) ∈ tree_ordered_processes procs →
      q ∈ procs ∧ depthOf procs q = some e := by
  intro e q h
  unfold tree_ordered_processes at h
  obtain ⟨r, hr, hq⟩ := List.mem_flatMap.mp h
  obtain ⟨hrp, hroot⟩ := (mem_rootsSorted procs r).mp hr
  have hr0 : depthOf procs r = some 0 := by
    unfold depthOf
    rw [depthOfAux, if_pos hroot]
  exact add_tree_mem procs hnd procs.length 0 r hrp hr0 e q hq

theorem flatMap_split {α β : Type} (f : α → List β) :
    ∀ (xs : List α) (l₁ : List β) (a : β) (l₂ : List β),
      xs.flatMap f = l₁ ++ a :: l₂ →
      ∃ x ∈ xs, ∃ p₁ p₂, f x = p₁ ++ a :: p₂ ∧ ∀ y ∈ p₁, y ∈ l₁ := by
  intro xs
  induction xs with
  | nil =>
    intro l₁ a l₂ h
    rw [List.flatMap_nil] at h
    cases l₁ <;> simp at h
  | cons x xs ih =>
    intro l₁ a l₂ h
    rw [List.flatMap_cons] at h
    rcases List.append_eq_append_iff.mp h with ⟨a', hl₁, hrest⟩ | ⟨c', hfx, hcons⟩
    · obtain ⟨x', hx', p₁, p₂, hfx', hsub⟩ := ih a' a l₂ hrest
      exact ⟨x', List.mem_cons_of_mem x hx', p₁, p₂, hfx',
        fun y hy => hl₁ ▸ List.mem_append_right (f x) (hsub y hy)⟩
    · cases c' with
      | nil =>
        rw [List.nil_append] at hcons
        obtain ⟨x', hx', p₁, p₂, hfx', hsub⟩ := ih [] a l₂ (by simpa using hcons.symm)
        exact ⟨x', List.mem_cons_of_mem x hx', p₁, p₂, hfx',
          fun y hy => absurd (hsub y hy) (List.not_mem_nil y)⟩
      | cons b c'' =>
        rw [List.cons_append] at hcons
        injection hcons with hab hl₂
        subst hab
        exact ⟨x, List.mem_cons_self x xs, l₁, c'', hfx, fun y hy => hy⟩


theorem add_tree_parent_link (procs : List ProcessInfo) :
    ∀ fuel d x l₁ dq l₂,
      add_tree_children procs fuel d x = l₁ ++ dq :: l₂ → d < dq.1 →
      ∃ dp ∈ l₁, dp.1 + 1 = dq.1 ∧ dp.2.pid = dq.2.ppid := by
  intro fuel
  induction fuel with
  | zero =>
    intro d x l₁ dq l₂ h _
    rw [show add_tree_children procs 0 d x = [] from rfl] at h
    cases l₁ <;> simp at h
  | succ fuel ih =>
    intro d x l₁ dq l₂ h hlt
    rw [add_tree_cons] at h
    cases l₁ with
    | nil =>
      rw [List.nil_append] at h
      injection h with h1 h2
      rw [← h1] at hlt
      simp at hlt
    | cons p l₁' =>
      rw [List.cons_append] at h
      injection h with h1 h2
      obtain ⟨c, hc, p₁, p₂, hblock, hsub⟩ := flatMap_split _ _ l₁' dq l₂ h2
      by_cases hd1 : dq.1 = d + 1
      · cases p₁ with
        | nil =>
          cases fuel with
          | zero =>
            rw [show add_tree_children procs 0 (d + 1) c = [] from rfl] at hblock
            simp at hblock
          | succ fuel' =>
            rw [add_tree_cons, List.nil_append] at hblock
            injection hblock with hb1 hb2
            refine ⟨p, List.mem_cons_self p l₁', ?_, ?_⟩
            · rw [← h1, ← hb1]
            · have hcpp := ((children_mem procs x.pid c).mp hc).2.2
              rw [← h1, ← hb1]
              exact hcpp.symm
        | cons b p₁'' =>
          exfalso
          cases fuel with
          | zero =>
            rw [show add_tree_children procs 0 (d + 1) c = [] from rfl] at hblock
            simp at hblock
          | succ fuel' =>
            rw [add_tree_cons, List.cons_append] at hblock
            injection hblock with hb1 hb2
            have hdqmem : dq ∈ (childrenSorted procs c.pid).flatMap
                (add_tree_children procs fuel' (d + 1 + 1)) := by
              rw [hb2]
              exact List.mem_append_right _ (List.mem_cons_self dq p₂)
            obtain ⟨g, _, hdqg⟩ := List.mem_flatMap.mp hdqmem
            have hge := add_tree_depth_ge procs fuel' (d + 1 + 1) g dq.1 dq.2
              (by simpa using hdqg)
            omega
      · have hge : d + 1 ≤ dq.1 := by
          have hdqmem : dq ∈ add_tree_children procs fuel (d + 1) c := by
            rw [hblock]
            exact List.mem_append_right _ (List.mem_cons_self dq p₂)
          exact add_tree_depth_ge procs fuel (d + 1) c dq.1 dq.2 (by simpa using hdqmem)
        obtain ⟨dp, hdp, hlink⟩ := ih (d + 1) c p₁ dq p₂ hblock (by omega)
        exact ⟨dp, List.mem_cons_of_mem p (hsub dp hdp), hlink⟩

/-- C4 helper: every entry of the tree view at positive depth is preceded by
an entry one level shallower whose pid is the entry's parent pid. -/
theorem tree_parent_link (procs : List ProcessInfo) :
    ∀ l₁ dq l₂, tree_ordered_processes procs = l₁ ++ dq :: l₂ → 0 < dq.1 →
      ∃ dp ∈ l₁, dp.1 + 1 = dq.1 ∧ dp.2.pid = dq.2.ppid := by
  intro l₁ dq l₂ h hpos
  unfold tree_ordered_processes at h
  obtain ⟨r, _, p₁, p₂, hblock, hsub⟩ := flatMap_split _ _ l₁ dq l₂ h
  obtain ⟨dp, hdp, hlink⟩ := add_tree_parent_link procs procs.length 0 r p₁ dq p₂ hblock hpos
  exact ⟨dp, hsub dp hdp, hlink⟩

/-! ## Each rooted record's traversal block occurs inside the tree view -/

theorem treeBlock_infix (procs : List ProcessInfo)
    (hnd : (procs.map ProcessInfo.pid).Nodup) :
    ∀ d p, p ∈ procs → depthOf procs p = some d →
      ∃ l r, tree_ordered_processes procs = l ++ (treeBlock procs d p ++ r) := by
  intro d
  induction d with
  | zero =>
    intro p hp hd
    have hroot : isRoot procs p = true := by
      by_contra hr
      unfold depthOf at hd
      rw [depthOfAux, if_neg hr] at hd
      split at hd
      · rw [Option.map_eq_some'] at hd
        obtain ⟨d', _, hd'⟩ := hd
        omega
      · exact Option.noConfusion hd
    have hpr : p ∈ rootsSorted procs := (mem_rootsSorted procs p).mpr ⟨hp, hroot⟩
    obtain ⟨u, v, huv⟩ := List.append_of_mem hpr
    refine ⟨u.flatMap (fun r => treeBlock procs 0 r),
      v.flatMap (fun r => treeBlock procs 0 r), ?_⟩
    rw [tree_eq_blocks, huv, List.flatMap_append, List.flatMap_cons]
  | succ d ihd =>
    intro p hp hd
    have hroot : isRoot procs p = false := by
      cases hr : isRoot procs p
      · rfl
      · exfalso
        unfold depthOf at hd
        rw [depthOfAux, if_pos hr] at hd
        injection hd with h0
        omega
    have hd' := hd
    unfold depthOf at hd'
    rw [depthOfAux, if_neg (by rw [hroot]; exact Bool.false_ne_true)] at hd'
    split at hd'
    · rename_i q hq
      rw [Option.map_eq_some'] at hd'
      obtain ⟨dq, hdq, hsum⟩ := hd'
      have hdqd : dq = d := by omega
      rw [hdqd] at hdq
      have hqmem : q ∈ procs := List.mem_of_find?_eq_some hq
      have hlt := depthOfAux_lt procs procs.length q d hdq
      have hqdepth : depthOf procs q = some d :=
        depthOfAux_mono procs procs.length q d hdq (procs.length + 1) (by omega)
      obtain ⟨l, r, hlr⟩ := ihd q hqmem hqdepth
      have hppid : p.ppid = q.pid := by
        have hbeq := List.find?_some hq
        exact (beq_iff_eq.mp hbeq).symm
      have hpc : p ∈ childrenSorted procs q.pid :=
        (children_mem procs q.pid p).mpr ⟨hp, hroot, hppid⟩
      obtain ⟨u, v, huv⟩ := List.append_of_mem hpc
      have hblock := treeBlock_cons procs hnd q hqmem d hqdepth
      refine ⟨l ++ ((d, q) :: u.flatMap (fun c => treeBlock procs (d + 1) c)),
        (v.flatMap (fun c => treeBlock procs (d + 1) c)) ++ r, ?_⟩
      rw [hlr, hblock, huv, List.flatMap_append, List.flatMap_cons]
      simp
    · exact Option.noConfusion hd'

theorem map_head_sublist_flatMap {α β : Type} (l : List α) (f : α → List β) (g : α → β)
    (h : ∀ c ∈ l, ∃ t, f c = g c :: t) : (l.map g).Sublist (l.flatMap f) := by
  induction l with
  | nil => simp
  | cons c rest ih =>
    rw [List.map_cons, List.flatMap_cons]
    obtain ⟨t, ht⟩ := h c (List.mem_cons_self c rest)
    rw [ht, List.cons_append]
    exact List.Sublist.cons₂ (g c)
      ((ih (fun x hx => h x (List.mem_cons_of_mem c hx))).trans
        (List.sublist_append_right t _))

/-- C4 helper: the pid-sorted children of any rooted node appear, in that
order and at depth one below their parent, as a subsequence of the tree
view. -/
theorem tree_children_sublist (procs : List ProcessInfo)
    (hnd : (procs.map ProcessInfo.pid).Nodup) (x : ProcessInfo) (hx : x ∈ procs)
    (d : Nat) (hd : depthOf procs x = some d) :
    ((childrenSorted procs x.pid).map (fun c => (d + 1, c))).Sublist
      (tree_ordered_processes procs) := by
  obtain ⟨l, r, hlr⟩ := treeBlock_infix procs hnd d x hx hd
  have hblock := treeBlock_cons procs hnd x hx d hd
  have hsub1 : ((childrenSorted procs x.pid).map (fun c => (d + 1, c))).Sublist
      ((childrenSorted procs x.pid).flatMap (fun c => treeBlock procs (d + 1) c)) := by
    apply map_head_sublist_flatMap
    intro c hc
    have hcd := depthOf_child procs hnd x hx d hd c hc
    have hcm := ((children_mem procs x.pid c).mp hc).1
    exact ⟨(childrenSorted procs c.pid).flatMap (fun g => treeBlock procs (d + 1 + 1) g),
      treeBlock_cons procs hnd c hcm (d + 1) hcd⟩
  rw [hlr, hblock]
  exact hsub1.trans (((List.sublist_cons_self (d, x) _).trans
    (List.sublist_append_left _ r)).trans (List.sublist_append_right l _))

/-! ## No record is visited twice -/

theorem nodup_flatMap_disjoint {α β : Type} (l : List α) (f : α → List β)
    (hn : ∀ x ∈ l, (f x).Nodup)
    (hd : l.Pairwise (fun x y => ∀ b, b ∈ f x → b ∈ f y → False)) :
    (l.flatMap f).Nodup := by
  induction l with
  | nil => simp
  | cons x rest ih =>
    rw [List.flatMap_cons]
    rw [List.pairwise_cons] at hd
    refine List.Nodup.append (hn x (List.mem_cons_self x rest))
      (ih (fun y hy => hn y (List.mem_cons_of_mem x hy)) hd.2) ?_
    intro b hbx hbrest
    obtain ⟨y, hy, hby⟩ := List.mem_flatMap.mp hbrest
    exact hd.1 y hy b hbx hby

theorem treeBlock_nodup_anc (procs : List ProcessInfo)
    (hnd : (procs.map ProcessInfo.pid).Nodup) :
    ∀ fuel d x, fuel = procs.length - d → x ∈ procs → depthOf procs x = some d →
      ((treeBlock procs d x).map Prod.snd).Nodup ∧
      (∀ q ∈ (treeBlock procs d x).map Prod.snd,
        ∃ e, depthOf procs q = some e ∧ d ≤ e ∧ ancIter procs (e - d) q = some x) := by
  intro fuel
  induction fuel with
  | zero =>
    intro d x hfe hx hd
    exfalso
    have := depthOf_le procs hnd x hx d hd
    omega
  | succ fuel ih =>
    intro d x hfe hx hd
    have hdn := depthOf_le procs hnd x hx d hd
    have hblock := treeBlock_cons procs hnd x hx d hd
    have hchild : ∀ c ∈ childrenSorted procs x.pid,
        c ∈ procs ∧ depthOf procs c = some (d + 1) := fun c hc =>
      ⟨((children_mem procs x.pid c).mp hc).1, depthOf_child procs hnd x hx d hd c hc⟩
    have hfee : fuel = procs.length - (d + 1) := by omega
    have hmain : ∀ c ∈ childrenSorted procs x.pid,
        ((treeBlock procs (d + 1) c).map Prod.snd).Nodup ∧
        (∀ q ∈ (treeBlock procs (d + 1) c).map Prod.snd,
          ∃ e, depthOf procs q = some e ∧ d + 1 ≤ e ∧
            ancIter procs (e - (d + 1)) q = some c) :=
      fun c hc => ih (d + 1) c hfee (hchild c hc).1 (hchild c hc).2
    have hstep : ∀ c ∈ childrenSorted procs x.pid,
        ∀ q ∈ (treeBlock procs (d + 1) c).map Prod.snd,
          ∃ e, depthOf procs q = some e ∧ d ≤ e ∧ ancIter procs (e - d) q = some x := by
      intro c hc q hq
      obtain ⟨e, he, hge, hanc⟩ := (hmain c hc).2 q hq
      refine ⟨e, he, by omega, ?_⟩
      have hed : e - d = (e - (d + 1)) + 1 := by omega
      rw [hed, ancIter, hanc]
      have hcr : isRoot procs c = false := ((children_mem procs x.pid c).mp hc).2.1
      have hcpp : c.ppid = x.pid := ((children_mem procs x.pid c).mp hc).2.2
      show (if isRoot procs c = true then none
        else procs.find? (fun r => r.pid == c.ppid)) = some x
      rw [if_neg (by rw [hcr]; exact Bool.false_ne_true), hcpp,
        find_pid_unique procs hnd x hx]
    constructor
    · rw [hblock, List.map_cons, List.nodup_cons]
      constructor
      · intro hxmem
        rw [List.map_flatMap] at hxmem
        obtain ⟨c, hc, hxc⟩ := List.mem_flatMap.mp hxmem
        obtain ⟨e, he, hge, _⟩ := (hmain c hc).2 x (by simpa using hxc)
        rw [hd] at he
        injection he with he'
        omega
      · rw [List.map_flatMap]
        apply nodup_flatMap_disjoint
        · intro c hc
          exact (hmain c hc).1
        · refine (childrenSorted_nodup procs hnd x.pid).imp_of_mem ?_
          intro c₁ c₂ hc₁ hc₂ hne b hb₁ hb₂
          obtain ⟨e₁, he₁, _, hanc₁⟩ := (hmain c₁ hc₁).2 b hb₁
          obtain ⟨e₂, he₂, _, hanc₂⟩ := (hmain c₂ hc₂).2 b hb₂
          rw [he₁] at he₂
          injection he₂ with hee
          rw [← hee] at hanc₂
          rw [hanc₁] at hanc₂
          injection hanc₂ with hcc
          exact hne hcc
    · intro q hq
      rw [hblock, List.map_cons] at hq
      rcases List.mem_cons.mp hq with rfl | hmem
      · exact ⟨d, hd, le_refl d, by rw [Nat.sub_self]; rfl⟩
      · rw [List.map_flatMap] at hmem
        obtain ⟨c, hc, hqc⟩ := List.mem_flatMap.mp hmem
        exact hstep c hc q hqc

theorem tree_map_snd_nodup (procs : List ProcessInfo)
    (hnd : (procs.map ProcessInfo.pid).Nodup) :
    ((tree_ordered_processes procs).map Prod.snd).Nodup := by
  rw [tree_eq_blocks, List.map_flatMap]
  apply nodup_flatMap_disjoint
  · intro r hr
    obtain ⟨hrp, hroot⟩ := (mem_rootsSorted procs r).mp hr
    have hr0 : depthOf procs r = some 0 := by
      unfold depthOf
      rw [depthOfAux, if_pos hroot]
    exact (treeBlock_nodup_anc procs hnd (procs.length - 0) 0 r rfl hrp hr0).1
  · refine (rootsSorted_nodup procs hnd).imp_of_mem ?_
    intro r₁ r₂ hr₁ hr₂ hne b hb₁ hb₂
    obtain ⟨hrp₁, hroot₁⟩ := (mem_rootsSorted procs r₁).mp hr₁
    obtain ⟨hrp₂, hroot₂⟩ := (mem_rootsSorted procs r₂).mp hr₂
    have hr01 : depthOf procs r₁ = some 0 := by
      unfold depthOf
      rw [depthOfAux, if_pos hroot₁]
    have hr02 : depthOf procs r₂ = some 0 := by
      unfold depthOf
      rw [depthOfAux, if_pos hroot₂]
    obtain ⟨e₁, he₁, _, hanc₁⟩ :=
      (treeBlock_nodup_anc procs hnd (procs.length - 0) 0 r₁ rfl hrp₁ hr01).2 b hb₁
    obtain ⟨e₂, he₂, _, hanc₂⟩ :=
      (treeBlock_nodup_anc procs hnd (procs.length - 0) 0 r₂ rfl hrp₂ hr02).2 b hb₂
    rw [he₁] at he₂
    injection he₂ with hee
    rw [← hee] at hanc₂
    rw [hanc₁] at hanc₂
    injection hanc₂ with hcc
    exact hne hcc

theorem tree_mem_of_rooted (procs : List ProcessInfo)
    (hnd : (procs.map ProcessInfo.pid).Nodup) (p : ProcessInfo) (hp : p ∈ procs)
    (d : Nat) (hd : depthOf procs p = some d) :
    (d, p) ∈ tree_ordered_processes procs := by
  obtain ⟨l, r, hlr⟩ := treeBlock_infix procs hnd d p hp hd
  rw [hlr, treeBlock_cons procs hnd p hp d hd]
  exact List.mem_append_right l (List.mem_append_left r (List.mem_cons_self _ _))

theorem tree_map_snd_perm (procs : List ProcessInfo)
    (hnd : (procs.map ProcessInfo.pid).Nodup) (hr : allRooted procs = true) :
    ((tree_ordered_processes procs).map Prod.snd).Perm procs := by
  rw [List.perm_ext_iff_of_nodup (tree_map_snd_nodup procs hnd) (procs_nodup procs hnd)]
  intro q
  constructor
  · intro hq
    obtain ⟨⟨e, p⟩, hmem, hqe⟩ := List.mem_map.mp hq
    cases hqe
    exact (tree_mem procs hnd e p hmem).1
  · intro hq
    have hsome := (List.all_eq_true.mp hr) q hq
    obtain ⟨d, hd⟩ := Option.isSome_iff_exists.mp hsome
    exact List.mem_map.mpr ⟨(d, q), tree_mem_of_rooted procs hnd q hq d hd, rfl⟩

/-! ## C4 — the TREE-mode traversal -/

/-- C4: in the tree view (for a snapshot with unique pids, as the data model
guarantees): the depth-0 entries are exactly the roots — the records whose
`ppid` is 0 or matches no pid of the snapshot — in ascending pid order;
every entry's recorded depth is its true parent-chain depth; every entry at
positive depth is preceded by its parent one level shallower (so a parent
precedes all its descendants); and the children of every rooted node appear
in ascending pid order at depth one below it. -/
theorem c4_tree_traversal (procs : List ProcessInfo)
    (hnd : (procs.map ProcessInfo.pid).Nodup) :
    ((tree_ordered_processes procs).filter (fun z => z.1 == 0)
        = (rootsSorted procs).map (fun p => ((0 : Nat), p)))
    ∧ (∀ p, p ∈ rootsSorted procs ↔ p ∈ procs ∧ isRoot procs p = true)
    ∧ (rootsSorted procs).Pairwise (fun a b => a.pid ≤ b.pid)
    ∧ (∀ e q, (e, q) ∈ tree_ordered_processes procs →
        q ∈ procs ∧ depthOf procs q = some e)
    ∧ (∀ l₁ dq l₂, tree_ordered_processes procs = l₁ ++ dq :: l₂ → 0 < dq.1 →
        ∃ dp ∈ l₁, dp.1 + 1 = dq.1 ∧ dp.2.pid = dq.2.ppid)
    ∧ (∀ x d, x ∈ procs → depthOf procs x = some d →
        (childrenSorted procs x.pid).Pairwise (fun a b => a.pid ≤ b.pid) ∧
        ((childrenSorted procs x.pid).map (fun c => (d + 1, c))).Sublist
          (tree_ordered_processes procs)) := by
  refine ⟨tree_filter_depth0 procs, mem_rootsSorted procs, rootsSorted_sorted procs,
    tree_mem procs hnd, tree_parent_link procs, ?_⟩
  intro x d hx hd
  exact ⟨childrenSorted_sorted procs x.pid, tree_children_sublist procs hnd x hx d hd⟩

/-- Fixture for the tree claims: a three-level chain plus an orphan whose
declared parent is absent from the snapshot. -/
def fxChain : List ProcessInfo :=
  [{ pid := 1, ppid := 0, user := "root", status := "S", cpu := 1, mem := 1,
     virtual_mem := 0, cpu_time := 0, command := "init" },
   { pid := 2, ppid := 1, user := "root", status := "S", cpu := 1, mem := 1,
     virtual_mem := 0, cpu_time := 0, command := "daemon" },
   { pid := 3, ppid := 2, user := "alice", status := "R", cpu := 1, mem := 1,
     virtual_mem := 0, cpu_time := 0, command := "worker" },
   { pid := 4, ppid := 99, user := "bob", status := "S", cpu := 1, mem := 1,
     virtual_mem := 0, cpu_time := 0, command := "orphan" }]

/-- C4 witness: the statement at the chain-plus-orphan fixture. -/
theorem c4_tree_traversal_witness :
    (fxChain.map ProcessInfo.pid).Nodup ∧
    (((tree_ordered_processes fxChain).filter (fun z => z.1 == 0)
        = (rootsSorted fxChain).map (fun p => ((0 : Nat), p)))
    ∧ (∀ p, p ∈ rootsSorted fxChain ↔ p ∈ fxChain ∧ isRoot fxChain p = true)
    ∧ (rootsSorted fxChain).Pairwise (fun a b => a.pid ≤ b.pid)
    ∧ (∀ e q, (e, q) ∈ tree_ordered_processes fxChain →
        q ∈ fxChain ∧ depthOf fxChain q = some e)
    ∧ (∀ l₁ dq l₂, tree_ordered_processes fxChain = l₁ ++ dq :: l₂ → 0 < dq.1 →
        ∃ dp ∈ l₁, dp.1 + 1 = dq.1 ∧ dp.2.pid = dq.2.ppid)
    ∧ (∀ x d, x ∈ fxChain → depthOf fxChain x = some d →
        (childrenSorted fxChain x.pid).Pairwise (fun a b => a.pid ≤ b.pid) ∧
        ((childrenSorted fxChain x.pid).map (fun c => (d + 1, c))).Sublist
          (tree_ordered_processes fxChain))) :=
  ⟨by decide, c4_tree_traversal fxChain (by decide)⟩

/-! ## C5 — the TREE view shows every record exactly once (when acyclic) -/

/-- A record that is its own declared parent: its parent chain never reaches
a root. -/
def fxSelf : ProcessInfo :=
  { pid := 5, ppid := 5, user := "root", status := "S", cpu := 1, mem := 1,
    virtual_mem := 0, cpu_time := 0, command := "loop" }

/-- C5 (counterexample): for a snapshot containing a record whose parent
link cycles (here, a record that is its own parent), the TREE view misses
the record entirely: the view is empty while the snapshot has one record —
and `get_list_length` still reports 1. -/
theorem c5_tree_cex :
    tree_ordered_processes [fxSelf] = []
    ∧ (tree_ordered_processes [fxSelf]).length = 0
    ∧ App.get_list_length { App.new with processes := [fxSelf], tree_view := true } = 1
    ∧ fxSelf ∈ [fxSelf] := by
  have hfilter : List.filter (fun p => isRoot [fxSelf] p) [fxSelf] = [] := by decide
  have hroots : rootsSorted [fxSelf] = [] := by
    unfold rootsSorted
    rw [hfilter, List.mergeSort_nil]
  refine ⟨?_, ?_, rfl, by decide⟩
  · rw [tree_eq_blocks, hroots]
    rfl
  · rw [tree_eq_blocks, hroots]
    rfl

/-- C5 (amended): for every snapshot with unique pids in which every
record's parent chain reaches a root (no parent cycles), the TREE-mode view
contains every record of the snapshot exactly once — whatever the active
Filter, which the tree view never consults — so its length equals the
snapshot's record count, and `get_list_length` reports that same count in
TREE mode. -/
theorem c5_tree_complete (procs : List ProcessInfo) (f : Option String)
    (hnd : (procs.map ProcessInfo.pid).Nodup) (hr : allRooted procs = true) :
    ((tree_ordered_processes procs).map Prod.snd).Perm procs
    ∧ (tree_ordered_processes procs).length = procs.length
    ∧ (∀ p ∈ procs, ((tree_ordered_processes procs).map Prod.snd).count p = 1)
    ∧ App.get_list_length
        { App.new with processes := procs, tree_view := true, active_filter := f }
      = procs.length := by
  have hperm := tree_map_snd_perm procs hnd hr
  refine ⟨hperm, ?_, ?_, rfl⟩
  · have hlen := hperm.length_eq
    rw [List.length_map] at hlen
    exact hlen
  · intro p hp
    exact List.count_eq_one_of_mem (tree_map_snd_nodup procs hnd) (hperm.mem_iff.mpr hp)

/-- C5 witness: the amended statement at the chain-plus-orphan fixture, with
an active filter present (and ignored). -/
theorem c5_tree_complete_witness :
    ((fxChain.map ProcessInfo.pid).Nodup ∧ allRooted fxChain = true) ∧
    (((tree_ordered_processes fxChain).map Prod.snd).Perm fxChain
    ∧ (tree_ordered_processes fxChain).length = fxChain.length
    ∧ (∀ p ∈ fxChain, ((tree_ordered_processes fxChain).map Prod.snd).count p = 1)
    ∧ App.get_list_length
        { App.new with processes := fxChain, tree_view := true, active_filter := some "chrome" }
      = fxChain.length) :=
  ⟨⟨by decide, by decide⟩,
    c5_tree_complete fxChain (some "chrome") (by decide) (by decide)⟩

/-- C3 witness: the statement at a concrete snapshot with filter "or", the
CPU key and descending direction. -/
theorem c3_flat_view_witness :
    (∀ p, p ∈ render_flat fxChain .CPU .Desc (some "or") ↔
        p ∈ fxChain ∧ matches_filter (some "or") p = true)
    ∧ (render_flat fxChain .CPU .Desc (some "or")).length
        = fxChain.countP (fun p => matches_filter (some "or") p)
    ∧ (render_flat fxChain .CPU .Desc (some "or")).Pairwise
        (fun a b => dirLE .Desc a.cpu b.cpu) :=
  ⟨(c3_flat_view fxChain (some "or") .CPU .Desc).1,
   (c3_flat_view fxChain (some "or") .CPU .Desc).2.1,
   (c3_flat_view fxChain (some "or") .CPU .Desc).2.2.2.2.1 rfl⟩
